import Mathlib

/-!
Verification of the Wasserstein EMD library core (`wasserstein/EMD.hh`):
a shallow embedding of the `_EMD` single-pair solver front end and of the
`PairwiseEMD` orchestrator, with theorems about weight balancing, scaling,
the triangular pair enumeration, symmetric storage, dispatch, error
aggregation, request mode, flow lookup and constructor behaviour.

Machine reals (`double`) are modelled by `ℚ`: the C++ code is generic in
its `Value` template parameter and every claim checked here is about the
algebraic structure of the algorithms, not about rounding.
-/

/-- Status codes returned by the network simplex solver
(`EMDStatus` in the source). -/
inductive EMDStatus where
  | Success
  | Empty
  | SupplyMismatch
  | Unbounded
  | MaxIterReached
  | Infeasible
  deriving DecidableEq, Repr

/-- Numeric value of a status code, as used by `int(status)` when a failure
message is formatted. -/
def EMDStatus.code : EMDStatus → ℕ
  | .Success => 0
  | .Empty => 1
  | .SupplyMismatch => 2
  | .Unbounded => 3
  | .MaxIterReached => 4
  | .Infeasible => 5

/-- Records whether a fictitious particle was added, and to which event
(`ExtraParticle` in the source: `Neither`, `Zero`, `One`). -/
inductive ExtraParticle where
  | Neither
  | Zero
  | One
  deriving DecidableEq, Repr

/-- Storage strategies of `PairwiseEMD` (`EMDPairsStorage` in the source). -/
inductive EMDPairsStorage where
  | Full
  | FullSymmetric
  | FlattenedSymmetric
  | External
  deriving DecidableEq, Repr

/-- Total weight of an event: the sum of its particle weights
(`Event::total_weight`). -/
def totalWeight (ws : List ℚ) : ℚ := ws.sum

namespace EMD

/-- The observable state of `EMDBase` that the `_EMD` constructor
initializes. -/
structure BaseState where
  norm : Bool
  do_timing : Bool
  external_dists : Bool
  scale : ℚ
  deriving Repr

/-- The `_EMD` constructor (`EMD.hh` lines 119-138): the base class is
initialized with the caller's arguments, then the body sets `scale_ = 1` and
calls `set_external_dists(std::is_same<PairwiseDistance,
DefaultPairwiseDistance<Value>>::value)`.  The type-level `std::is_same`
test is the Boolean parameter `pairwiseDistanceIsDefault`. -/
def construct (norm do_timing external_dists : Bool)
    (pairwiseDistanceIsDefault : Bool) : BaseState :=
  let base : BaseState :=
    { norm := norm, do_timing := do_timing,
      external_dists := external_dists, scale := 1 }
  let base := { base with scale := 1 }
  { base with external_dists := pairwiseDistanceIsDefault }

/-- Result of the weight-balancing stage of `_EMD::compute`
(`EMD.hh` lines 228-259). -/
structure PadResult where
  extra : ExtraParticle
  n0 : ℕ
  n1 : ℕ
  weights : List ℚ
  deriving Repr

/-- The weight-balancing stage of `_EMD::compute` (lines 228-259):
`n0`/`n1` start as the particle counts, `weightdiff = total(ev1) -
total(ev0)`; for norm, external distances or equal totals no particle is
added and the buffer is `ws0 ++ ws1` plus the one reserved trailing slot;
for `weightdiff > 0` the weight difference is placed after `ws0` and `n0`
is incremented; otherwise `-weightdiff` is placed after `ws1` and `n1` is
incremented.  The reserved trailing slot left by
`resize(n0() + n1() + 1)` is modelled as a trailing `0`. -/
def pad (norm external_dists : Bool) (ws0 ws1 : List ℚ) : PadResult :=
  let weightdiff := totalWeight ws1 - totalWeight ws0
  if norm ∨ external_dists ∨ weightdiff = 0 then
    ⟨ExtraParticle.Neither, ws0.length, ws1.length, ws0 ++ ws1 ++ [0]⟩
  else if 0 < weightdiff then
    ⟨ExtraParticle.Zero, ws0.length + 1, ws1.length,
      ws0 ++ weightdiff :: (ws1 ++ [0])⟩
  else
    ⟨ExtraParticle.One, ws0.length, ws1.length + 1,
      ws0 ++ ws1 ++ [-weightdiff, 0]⟩

/-- The outcome of one `_EMD::compute` call. -/
structure ComputeResult where
  n0 : ℕ
  n1 : ℕ
  extra : ExtraParticle
  weightdiff : ℚ
  scale : ℚ
  weights : List ℚ
  status : EMDStatus
  emd : ℚ
  deriving Repr

/-- `_EMD::compute` (`EMD.hh` lines 220-285), with the network simplex
abstracted as `solver` (given `n0`, `n1` and the weight buffer it returns a
status and a total cost).  After the balancing stage, unless `norm` is set
`scale` becomes `max(total(ev0), total(ev1))` and every weight in the
buffer is divided by it (when `norm` is set `scale` keeps its constructor
value `1` and the weights are untouched); the solver runs, and exactly on
`Success` with `norm` unset the reported cost is multiplied back by
`scale`. -/
def compute (norm external_dists : Bool)
    (solver : ℕ → ℕ → List ℚ → EMDStatus × ℚ)
    (ws0 ws1 : List ℚ) : ComputeResult :=
  let weightdiff := totalWeight ws1 - totalWeight ws0
  let p := pad norm external_dists ws0 ws1
  let scale : ℚ :=
    if ¬norm then max (totalWeight ws0) (totalWeight ws1) else 1
  let weights := if ¬norm then p.weights.map (· / scale) else p.weights
  let res := solver p.n0 p.n1 weights
  let emd :=
    if res.1 = EMDStatus.Success ∧ ¬norm then res.2 * scale else res.2
  ⟨p.n0, p.n1, p.extra, weightdiff, scale, weights, res.1, emd⟩

/-- `_EMD::flow(i, j)` (`EMD.hh` lines 307-318): negative indices are
shifted by the corresponding dimension, out-of-range indices raise, and an
in-range lookup returns the raw solver flow at row-major position
`i*n1 + j` rescaled by `scale`. -/
def flow (n0 n1 : ℤ) (flows : List ℚ) (scale : ℚ) (i j : ℤ) :
    Except String ℚ :=
  let i := if i < 0 then i + n0 else i
  let j := if j < 0 then j + n1 else j
  if n0 ≤ i ∨ n1 ≤ j ∨ i < 0 ∨ j < 0 then
    Except.error "EMD::flow - Indices out of range"
  else
    Except.ok (flows.getD (i * n1 + j).toNat 0 * scale)

end EMD

/-- C1: with `norm` false, external distances not in use and unequal total
weights, `_EMD::compute` appends exactly one padding point, on the side
with the smaller total weight — weight `Δ = total(ws1) - total(ws0)` after
`ws0` with `n0` incremented when `Δ > 0` (`ExtraParticle::Zero`, i.e.
added to the first event), weight `-Δ` after `ws1` with `n1` incremented
when `Δ < 0` (`ExtraParticle::One`) — and after padding both sides have
equal total weight. -/
theorem C1_padding_balances (solver : ℕ → ℕ → List ℚ → EMDStatus × ℚ)
    (ws0 ws1 : List ℚ) (hne : totalWeight ws0 ≠ totalWeight ws1) :
    let r := EMD.compute false false solver ws0 ws1
    let p := EMD.pad false false ws0 ws1
    let Δ := totalWeight ws1 - totalWeight ws0
    (totalWeight ws0 < totalWeight ws1 →
      r.extra = ExtraParticle.Zero ∧
      r.n0 = ws0.length + 1 ∧ r.n1 = ws1.length ∧
      p.weights = ws0 ++ Δ :: (ws1 ++ [0]) ∧
      totalWeight (ws0 ++ [Δ]) = totalWeight ws1) ∧
    (totalWeight ws1 < totalWeight ws0 →
      r.extra = ExtraParticle.One ∧
      r.n0 = ws0.length ∧ r.n1 = ws1.length + 1 ∧
      p.weights = ws0 ++ ws1 ++ [-Δ, 0] ∧
      totalWeight (ws1 ++ [-Δ]) = totalWeight ws0) := by
  intro r p Δ
  constructor
  · intro hlt
    have hd : (0 : ℚ) < Δ := by simp only [Δ]; linarith
    have hd0 : Δ ≠ 0 := ne_of_gt hd
    constructor
    · show (EMD.compute false false solver ws0 ws1).extra = _
      simp only [EMD.compute, EMD.pad, Bool.false_eq_true, false_or, hd0,
        if_false, hd, if_true]
    refine ⟨?_, ?_, ?_, ?_⟩
    · show (EMD.compute false false solver ws0 ws1).n0 = _
      simp only [EMD.compute, EMD.pad, Bool.false_eq_true, false_or, hd0,
        if_false, hd, if_true]
    · show (EMD.compute false false solver ws0 ws1).n1 = _
      simp only [EMD.compute, EMD.pad, Bool.false_eq_true, false_or, hd0,
        if_false, hd, if_true]
    · show (EMD.pad false false ws0 ws1).weights = _
      simp only [EMD.pad, Bool.false_eq_true, false_or, hd0, if_false, hd,
        if_true]
    · simp only [totalWeight, List.sum_append, List.sum_cons,
        List.sum_nil, Δ, totalWeight]
      ring
  · intro hlt
    have hd : Δ < 0 := by simp only [Δ]; linarith
    have hd0 : Δ ≠ 0 := ne_of_lt hd
    have hd1 : ¬(0 : ℚ) < Δ := not_lt.mpr (le_of_lt hd)
    constructor
    · show (EMD.compute false false solver ws0 ws1).extra = _
      simp only [EMD.compute, EMD.pad, Bool.false_eq_true, false_or, hd0,
        if_false, hd1]
    refine ⟨?_, ?_, ?_, ?_⟩
    · show (EMD.compute false false solver ws0 ws1).n0 = _
      simp only [EMD.compute, EMD.pad, Bool.false_eq_true, false_or, hd0,
        if_false, hd1]
    · show (EMD.compute false false solver ws0 ws1).n1 = _
      simp only [EMD.compute, EMD.pad, Bool.false_eq_true, false_or, hd0,
        if_false, hd1]
    · show (EMD.pad false false ws0 ws1).weights = _
      simp only [EMD.pad, Bool.false_eq_true, false_or, hd0, if_false, hd1,
        if_false]
    · simp only [totalWeight, List.sum_append, List.sum_cons,
        List.sum_nil, Δ, totalWeight]
      ring

/-- C1 witness: concrete events with weights `[1]` and `[2]` — the padding
point of weight `1` lands after the first event's weights. -/
theorem C1_padding_balances_witness :
    totalWeight [(1 : ℚ)] ≠ totalWeight [(2 : ℚ)] ∧
    ((EMD.compute false false (fun _ _ _ => (EMDStatus.Success, 0))
        [(1 : ℚ)] [(2 : ℚ)]).extra = ExtraParticle.Zero ∧
      totalWeight ([(1 : ℚ)] ++ [totalWeight [(2 : ℚ)] - totalWeight [(1 : ℚ)]]) =
        totalWeight [(2 : ℚ)]) := by
  have hne : totalWeight [(1 : ℚ)] ≠ totalWeight [(2 : ℚ)] := by
    simp [totalWeight]
  have hlt : totalWeight [(1 : ℚ)] < totalWeight [(2 : ℚ)] := by
    simp [totalWeight]
  have h := (C1_padding_balances (fun _ _ _ => (EMDStatus.Success, 0))
    [(1 : ℚ)] [(2 : ℚ)] hne).1 hlt
  exact ⟨hne, h.1, h.2.2.2.2⟩

/-- C2: with `norm` false, `compute` divides every weight in the combined
buffer by `scale = max(total(ws0), total(ws1))` before the solver runs,
and exactly when the solver status is `Success` it multiplies the reported
cost by that same scale (so the stored `emd` is the solver cost times the
scale, and on failure the cost is stored unscaled); with `norm` true no
scaling is applied in either direction. -/
theorem C2_scaling (external_dists : Bool)
    (solver : ℕ → ℕ → List ℚ → EMDStatus × ℚ) (ws0 ws1 : List ℚ) :
    (let r := EMD.compute false external_dists solver ws0 ws1
     let p := EMD.pad false external_dists ws0 ws1
     let scale := max (totalWeight ws0) (totalWeight ws1)
     r.scale = scale ∧
     r.weights = p.weights.map (· / scale) ∧
     (∀ c, solver p.n0 p.n1 r.weights = (EMDStatus.Success, c) →
        r.emd = c * scale) ∧
     (∀ st c, st ≠ EMDStatus.Success →
        solver p.n0 p.n1 r.weights = (st, c) → r.emd = c)) ∧
    (let r := EMD.compute true external_dists solver ws0 ws1
     let p := EMD.pad true external_dists ws0 ws1
     r.scale = 1 ∧ r.weights = p.weights ∧
     r.emd = (solver p.n0 p.n1 p.weights).2) := by
  constructor
  · refine ⟨rfl, rfl, ?_, ?_⟩
    · intro c hc
      simp only [EMD.compute] at hc ⊢
      simp only [Bool.not_eq_true, Bool.not_false, if_true,
        ite_true, Bool.false_eq_true, not_false_eq_true] at hc ⊢
      rw [hc]
      simp
    · intro st c hst hc
      simp only [EMD.compute] at hc ⊢
      simp only [Bool.not_eq_true, Bool.not_false, if_true,
        ite_true, Bool.false_eq_true, not_false_eq_true] at hc ⊢
      rw [hc]
      simp [hst]
  · refine ⟨rfl, rfl, ?_⟩
    simp only [EMD.compute]
    simp

/-- C2 witness: weights `[1, 2]` versus `[4]` with a solver reporting cost
`7`: the combined buffer is scaled by `1/4` and the stored distance is
`7 * 4 = 28`. -/
theorem C2_scaling_witness :
    (EMD.compute false false (fun _ _ _ => (EMDStatus.Success, 7))
        [(1 : ℚ), 2] [(4 : ℚ)]).emd = 28 ∧
    (EMD.compute false false (fun _ _ _ => (EMDStatus.Success, 7))
        [(1 : ℚ), 2] [(4 : ℚ)]).weights =
      [1/4, 2/4, 1/4, 4/4, 0/4] := by
  have h := (C2_scaling false (fun _ _ _ => (EMDStatus.Success, 7))
    [(1 : ℚ), 2] [(4 : ℚ)]).1
  constructor
  · have := h.2.2.1 7 rfl
    rw [this]
    norm_num [totalWeight]
  · have := h.2.1
    rw [this]
    simp only [EMD.pad, totalWeight]
    norm_num

namespace PairwiseEMD

/-- Number of unique EMDs in self-pairs mode:
`num_emds_ = nev*(nev - 1)/2` (`PairwiseEMD::init`, line 727). -/
def num_emds_self (nev : ℕ) : ℕ := nev * (nev - 1) / 2

/-- The self-pairs index computation of `PairwiseEMD::compute` (lines 803
and 821-824): `i = k/nevB`, `j = k%nevB`, then `if (j >= ++i)` both
coordinates are reflected (`i = nevA - i; j = nevA - j - 1`); in self-pairs
mode `nevA == nevB == N`.  The pre-increment `++i` is folded into the
definition of `i`. -/
def pairFromIndex (N k : ℕ) : ℕ × ℕ :=
  let i := k / N + 1
  let j := k % N
  if i ≤ j then (N - i, N - j - 1) else (i, j)

/-- Explicit inverse of `pairFromIndex`, used to state that the
enumeration is a bijection: of the two flat indices that could map to the
pair `(i, j)` (with `j < i`), the one lying below `num_emds_self N` is
returned. -/
def invPairIndex (N i j : ℕ) : ℕ :=
  if (i - 1) * N + j < num_emds_self N then (i - 1) * N + j
  else (N - i - 1) * N + (N - j - 1)

lemma two_mul_num_emds_self (N : ℕ) :
    2 * num_emds_self N = N * (N - 1) := by
  apply Nat.mul_div_cancel'
  rcases N with _ | m
  · simp
  · simpa [Nat.mul_comm] using (Nat.even_mul_succ_self m).two_dvd

/-- The two candidate flat indices of a pair `(i, j)` with `j < i < N` sum
to `2 * num_emds_self N - 1`, hence exactly one of them is in range. -/
lemma inv_indices_sum (N i j : ℕ) (hji : j < i) (hiN : i < N) :
    ((i - 1) * N + j) + ((N - i - 1) * N + (N - j - 1)) + 1 =
      2 * num_emds_self N := by
  rw [two_mul_num_emds_self]
  obtain ⟨p, rfl⟩ : ∃ p, i = j + p + 1 := ⟨i - j - 1, by omega⟩
  obtain ⟨q, rfl⟩ : ∃ q, N = j + p + q + 2 := ⟨N - (j + p + 1) - 1, by omega⟩
  have e1 : j + p + 1 - 1 = j + p := by omega
  have e2 : j + p + q + 2 - (j + p + 1) - 1 = q := by omega
  have e3 : j + p + q + 2 - j - 1 = p + q + 1 := by omega
  have e4 : j + p + q + 2 - 1 = j + p + q + 1 := by omega
  rw [e1, e2, e3, e4]
  ring

/-- In-range flat indices map to pairs `(i, j)` with `j < i < N`, and
`invPairIndex` recovers the flat index. -/
lemma pairFromIndex_spec (N k : ℕ) (hN : 2 ≤ N)
    (hk : k < num_emds_self N) :
    (pairFromIndex N k).2 < (pairFromIndex N k).1 ∧
    (pairFromIndex N k).1 < N ∧
    invPairIndex N (pairFromIndex N k).1 (pairFromIndex N k).2 = k := by
  have hN0 : 0 < N := by omega
  obtain ⟨q, r, hdm, hmod, hq, hr⟩ :
      ∃ q r, N * q + r = k ∧ r < N ∧ k / N = q ∧ k % N = r :=
    ⟨k / N, k % N, Nat.div_add_mod k N, Nat.mod_lt _ hN0, rfl, rfl⟩
  have hTle : num_emds_self N ≤ N * (N - 1) := Nat.div_le_self _ 2
  have hqlt : q < N - 1 := by
    by_contra h
    push_neg at h
    have : N * (N - 1) ≤ N * q := Nat.mul_le_mul_left _ h
    omega
  have hunfold : pairFromIndex N k =
      if q + 1 ≤ r then (N - (q + 1), N - r - 1) else (q + 1, r) := by
    simp only [pairFromIndex, hq, hr]
  by_cases hc : q + 1 ≤ r
  · have hpair : pairFromIndex N k = (N - (q + 1), N - r - 1) := by
      rw [hunfold, if_pos hc]
    rw [hpair]
    have g1 : N - r - 1 < N - (q + 1) := by omega
    have g2 : N - (q + 1) < N := by omega
    refine ⟨g1, g2, ?_⟩
    show invPairIndex N (N - (q + 1)) (N - r - 1) = k
    have hsum := inv_indices_sum N (N - (q + 1)) (N - r - 1) g1 g2
    have b1 : N - (N - (q + 1)) - 1 = q := by omega
    have b2 : N - (N - r - 1) - 1 = r := by omega
    rw [b1, b2] at hsum
    have hB : q * N + r = k := by rw [mul_comm]; exact hdm
    rw [hB] at hsum
    rw [invPairIndex, if_neg (by omega), b1, b2, hB]
  · have hpair : pairFromIndex N k = (q + 1, r) := by
      rw [hunfold, if_neg hc]
    rw [hpair]
    refine ⟨by omega, by omega, ?_⟩
    show invPairIndex N (q + 1) r = k
    have hA : (q + 1 - 1) * N + r = k := by
      have e : q + 1 - 1 = q := by omega
      rw [e, mul_comm]
      exact hdm
    rw [invPairIndex, if_pos (by omega)]
    exact hA

/-- Every pair `(i, j)` with `j < i < N` is hit: its inverse flat index is
in range and maps back to it. -/
lemma pairFromIndex_invPairIndex (N i j : ℕ) (hji : j < i) (hiN : i < N) :
    invPairIndex N i j < num_emds_self N ∧
    pairFromIndex N (invPairIndex N i j) = (i, j) := by
  have hN0 : 0 < N := by omega
  have hsum := inv_indices_sum N i j hji hiN
  have hjN : j < N := by omega
  rw [invPairIndex]
  by_cases hc : (i - 1) * N + j < num_emds_self N
  · rw [if_pos hc]
    refine ⟨hc, ?_⟩
    simp only [pairFromIndex]
    have hdiv : ((i - 1) * N + j) / N = i - 1 := by
      rw [mul_comm, Nat.mul_add_div hN0, Nat.div_eq_of_lt hjN, Nat.add_zero]
    have hmod : ((i - 1) * N + j) % N = j := by
      rw [mul_comm, Nat.mul_add_mod, Nat.mod_eq_of_lt hjN]
    rw [hdiv, hmod, if_neg (by omega)]
    have e : i - 1 + 1 = i := by omega
    rw [e]
  · rw [if_neg hc]
    have hBlt : (N - i - 1) * N + (N - j - 1) < num_emds_self N := by omega
    refine ⟨hBlt, ?_⟩
    simp only [pairFromIndex]
    have hjN' : N - j - 1 < N := by omega
    have hdiv : ((N - i - 1) * N + (N - j - 1)) / N = N - i - 1 := by
      rw [mul_comm, Nat.mul_add_div hN0, Nat.div_eq_of_lt hjN', Nat.add_zero]
    have hmod : ((N - i - 1) * N + (N - j - 1)) % N = N - j - 1 := by
      rw [mul_comm, Nat.mul_add_mod, Nat.mod_eq_of_lt hjN']
    rw [hdiv, hmod, if_pos (by omega)]
    have e1 : N - (N - i - 1 + 1) = i := by omega
    have e2 : N - (N - j - 1) - 1 = j := by omega
    rw [e1, e2]

end PairwiseEMD

/-- C3: the self-pairs triangular enumeration is a bijection from
`[0, N(N-1)/2)` onto the unordered pairs `{(i,j): i < j < N}` (the
enumeration emits the pair with the larger coordinate first, so its swap
lands in the canonically sorted pairs): every such pair is produced
exactly once; in particular for `N = 5`, `k = 0..9` yields exactly the 10
unordered pairs with no repeats. -/
theorem C3_enumeration_bijection (N : ℕ) (hN : 2 ≤ N) :
    Set.BijOn (fun k => Prod.swap (PairwiseEMD.pairFromIndex N k))
      (Set.Iio (PairwiseEMD.num_emds_self N))
      {p : ℕ × ℕ | p.1 < p.2 ∧ p.2 < N} ∧
    ((List.range 10).map fun k =>
        Prod.swap (PairwiseEMD.pairFromIndex 5 k)).Perm
      [(0, 1), (0, 2), (0, 3), (0, 4), (1, 2), (1, 3), (1, 4), (2, 3),
        (2, 4), (3, 4)] := by
  constructor
  · refine ⟨?_, ?_, ?_⟩
    · intro k hk
      have h := PairwiseEMD.pairFromIndex_spec N k hN hk
      exact ⟨h.1, h.2.1⟩
    · intro k1 h1 k2 h2 heq
      have s1 := PairwiseEMD.pairFromIndex_spec N k1 hN h1
      have s2 := PairwiseEMD.pairFromIndex_spec N k2 hN h2
      have hpair : PairwiseEMD.pairFromIndex N k1 =
          PairwiseEMD.pairFromIndex N k2 := by
        simpa using congrArg Prod.swap heq
      rw [← s1.2.2, ← s2.2.2, hpair]
    · intro p hp
      have h := PairwiseEMD.pairFromIndex_invPairIndex N p.2 p.1 hp.1 hp.2
      refine ⟨PairwiseEMD.invPairIndex N p.2 p.1, h.1, ?_⟩
      show (PairwiseEMD.pairFromIndex N
          (PairwiseEMD.invPairIndex N p.2 p.1)).swap = p
      rw [h.2]
      rfl
  · decide

/-- C3 witness: the bijection at `N = 5`. -/
theorem C3_enumeration_bijection_witness :
    2 ≤ 5 ∧
    (Set.BijOn (fun k => Prod.swap (PairwiseEMD.pairFromIndex 5 k))
        (Set.Iio (PairwiseEMD.num_emds_self 5))
        {p : ℕ × ℕ | p.1 < p.2 ∧ p.2 < 5} ∧
      ((List.range 10).map fun k =>
          Prod.swap (PairwiseEMD.pairFromIndex 5 k)).Perm
        [(0, 1), (0, 2), (0, 3), (0, 4), (1, 2), (1, 3), (1, 4), (2, 3),
          (2, 4), (3, 4)]) :=
  ⟨by decide, C3_enumeration_bijection 5 (by decide)⟩

namespace PairwiseEMD

/-- `PairwiseEMD::index_symmetric` (`EMD.hh` lines 941-952), computed in
the signed index type of the source (C integer division truncates, hence
`Int.tdiv`): the condensed offset of the unordered pair `(i, j)` in the
flattened upper-triangular storage, `-1` on the diagonal. -/
def index_symmetric (nevA num_emds i j : ℤ) : ℤ :=
  if j > i then num_emds - Int.tdiv ((nevA - i) * (nevA - i - 1)) 2 + j - i - 1
  else if i > j then num_emds - Int.tdiv ((nevA - j) * (nevA - j - 1)) 2 + i - j - 1
  else -1

/-- The index pairs visited by the dense-view fill loops of
`PairwiseEMD::emds` (lines 653-655): `i` over `[0, nevA)`, `j` over
`(i, nevB)`. -/
def upperPairs (nevA nevB : ℕ) : List (ℕ × ℕ) :=
  (List.range nevA).flatMap fun i =>
    (List.range (nevB - i - 1)).map fun d => (i, i + 1 + d)

/-- One iteration of the fill loop of `PairwiseEMD::emds` (line 655):
`full_emds_[i*nevB + j] = full_emds_[j*nevB + i] = emds_[index_symmetric(i, j)]`
(the right-to-left chained assignment writes `(j, i)` first). -/
def fillPair (nevA nevB num_emds : ℕ) (condensed : List ℚ)
    (acc : List ℚ) (p : ℕ × ℕ) : List ℚ :=
  let v := condensed.getD
    (index_symmetric (nevA : ℤ) (num_emds : ℤ) (p.1 : ℤ) (p.2 : ℤ)).toNat 0
  (acc.set (p.2 * nevB + p.1) v).set (p.1 * nevB + p.2) v

/-- The dense `nevA × nevB` view materialized by `PairwiseEMD::emds`
(lines 643-657) from FlattenedSymmetric storage: `full_emds_` is resized
from empty (value-initialized to zero), the diagonal-zeroing loop writes
`full_emds_[i*i] = 0` for `i` in `[0, nevA)`, then both `(i, j)` and
`(j, i)` are filled from the condensed offset for every upper pair. -/
def emdsFull (nevA nevB num_emds : ℕ) (condensed : List ℚ) : List ℚ :=
  let full0 : List ℚ := List.replicate (nevA * nevB) 0
  let full1 := (List.range nevA).foldl (fun acc i => acc.set (i * i) 0) full0
  (upperPairs nevA nevB).foldl (fillPair nevA nevB num_emds condensed) full1

lemma mem_upperPairs {nevA nevB : ℕ} {p : ℕ × ℕ} :
    p ∈ upperPairs nevA nevB ↔ p.1 < nevA ∧ p.1 < p.2 ∧ p.2 < nevB := by
  rcases p with ⟨a, b⟩
  simp only [upperPairs, List.mem_flatMap, List.mem_map, List.mem_range]
  constructor
  · rintro ⟨i, hi, d, hd, heq⟩
    rw [Prod.mk.injEq] at heq
    omega
  · rintro ⟨h1, h2, h3⟩
    refine ⟨a, h1, b - a - 1, by omega, ?_⟩
    rw [Prod.mk.injEq]
    omega

/-- A fold of two-position writes never touching position `t` leaves `t`
unchanged. -/
lemma foldl_write2_pres {α : Type} (step : List α → ℕ × ℕ → List α)
    (f g : ℕ × ℕ → ℕ) (v : ℕ × ℕ → α)
    (hstep : ∀ acc p, step acc p = (acc.set (f p) (v p)).set (g p) (v p))
    (l : List (ℕ × ℕ)) (acc : List α) (t : ℕ)
    (h : ∀ p ∈ l, f p ≠ t ∧ g p ≠ t) :
    (l.foldl step acc)[t]? = acc[t]? := by
  induction l generalizing acc with
  | nil => rfl
  | cons q l ih =>
    rw [List.foldl_cons, ih _ fun p hp => h p (List.mem_cons_of_mem _ hp)]
    have hq := h q (List.mem_cons_self _ _)
    rw [hstep, List.getElem?_set_ne hq.2, List.getElem?_set_ne hq.1]

/-- A fold of two-position writes whose every write to `t` writes `x`
keeps `t` at `x`. -/
lemma foldl_write2_frozen {α : Type} (step : List α → ℕ × ℕ → List α)
    (f g : ℕ × ℕ → ℕ) (v : ℕ × ℕ → α)
    (hstep : ∀ acc p, step acc p = (acc.set (f p) (v p)).set (g p) (v p))
    (l : List (ℕ × ℕ)) (acc : List α) (t : ℕ) (x : α)
    (h : ∀ p ∈ l, (f p = t ∨ g p = t) → v p = x)
    (h0 : acc[t]? = some x) :
    (l.foldl step acc)[t]? = some x := by
  induction l generalizing acc with
  | nil => exact h0
  | cons q l ih =>
    have hlen : t < acc.length := by
      by_contra hge
      rw [List.getElem?_eq_none (by omega)] at h0
      exact Option.noConfusion h0
    rw [List.foldl_cons]
    refine ih _ (fun p hp => h p (List.mem_cons_of_mem _ hp)) ?_
    rw [hstep]
    by_cases hg : g q = t
    · rw [hg, List.getElem?_set_eq_of_lt _ (by simpa using hlen),
        h q (List.mem_cons_self _ _) (Or.inr hg)]
    · rw [List.getElem?_set_ne hg]
      by_cases hf : f q = t
      · rw [hf, List.getElem?_set_eq_of_lt _ hlen,
          h q (List.mem_cons_self _ _) (Or.inl hf)]
      · rw [List.getElem?_set_ne hf]
        exact h0

/-- A fold of two-position writes containing a write of `x` to `t`, all of
whose writes to `t` write `x`, ends with `t` holding `x`. -/
lemma foldl_write2_writes {α : Type} (step : List α → ℕ × ℕ → List α)
    (f g : ℕ × ℕ → ℕ) (v : ℕ × ℕ → α)
    (hstep : ∀ acc p, step acc p = (acc.set (f p) (v p)).set (g p) (v p))
    (l : List (ℕ × ℕ)) (acc : List α) (t : ℕ) (x : α) (q : ℕ × ℕ)
    (hq : q ∈ l) (hw : f q = t ∨ g q = t)
    (hval : ∀ p ∈ l, (f p = t ∨ g p = t) → v p = x)
    (hlen : t < acc.length) :
    (l.foldl step acc)[t]? = some x := by
  induction l generalizing acc with
  | nil => exact absurd hq (List.not_mem_nil q)
  | cons r l ih =>
    rw [List.foldl_cons]
    by_cases hr : f r = t ∨ g r = t
    · refine foldl_write2_frozen step f g v hstep l _ t x
        (fun p hp => hval p (List.mem_cons_of_mem _ hp)) ?_
      have hx : v r = x := hval r (List.mem_cons_self _ _) hr
      rw [hstep]
      rcases hr with hf | hg
      · by_cases hg : g r = t
        · rw [hg, List.getElem?_set_eq_of_lt _ (by simpa using hlen), hx]
        · rw [List.getElem?_set_ne hg, hf,
            List.getElem?_set_eq_of_lt _ hlen, hx]
      · rw [hg, List.getElem?_set_eq_of_lt _ (by simpa using hlen), hx]
    · push_neg at hr
      have hql : q ∈ l := by
        rcases List.mem_cons.mp hq with rfl | hql
        · exact absurd hw (by push_neg; exact hr)
        · exact hql
      apply ih
      · exact hql
      · intro p hp hw'
        exact hval p (List.mem_cons_of_mem _ hp) hw'
      · rw [hstep]
        simpa using hlen

/-- Writing the replicated value back into a replicated list is the
identity, so the diagonal-zeroing loop leaves the zero-initialized dense
buffer all zero. -/
lemma foldl_set_zero_replicate (l : List ℕ) (n : ℕ) :
    l.foldl (fun (acc : List ℚ) i => acc.set (i * i) 0)
      (List.replicate n 0) = List.replicate n 0 := by
  induction l with
  | nil => rfl
  | cons i l ih =>
    rw [List.foldl_cons, List.set_replicate_self, ih]

/-- Row-major encoding of in-range pairs is injective. -/
lemma encode_inj {N a b c d : ℕ} (hb : b < N) (hd : d < N)
    (h : a * N + b = c * N + d) : a = c ∧ b = d := by
  have hN : 0 < N := by omega
  have h1 : (a * N + b) / N = a := by
    rw [mul_comm, Nat.mul_add_div hN, Nat.div_eq_of_lt hb, Nat.add_zero]
  have h2 : (c * N + d) / N = c := by
    rw [mul_comm, Nat.mul_add_div hN, Nat.div_eq_of_lt hd, Nat.add_zero]
  have h3 : (a * N + b) % N = b := by
    rw [mul_comm, Nat.mul_add_mod, Nat.mod_eq_of_lt hb]
  have h4 : (c * N + d) % N = d := by
    rw [mul_comm, Nat.mul_add_mod, Nat.mod_eq_of_lt hd]
  constructor
  · rw [← h1, ← h2, h]
  · rw [← h3, ← h4, h]

/-- The condensed offset of a sorted pair `(a, b)` (with `a < b < N`), as
a natural number: both argument orders of `index_symmetric` give it, and
it is in range. -/
lemma condensed_offset (N a b : ℕ) (hab : a < b) (hbN : b < N) :
    index_symmetric (N : ℤ) ((num_emds_self N : ℕ) : ℤ) (a : ℤ) (b : ℤ) =
      ((num_emds_self N - (N - a) * (N - a - 1) / 2 + (b - a - 1) : ℕ) : ℤ) ∧
    index_symmetric (N : ℤ) ((num_emds_self N : ℕ) : ℤ) (b : ℤ) (a : ℤ) =
      ((num_emds_self N - (N - a) * (N - a - 1) / 2 + (b - a - 1) : ℕ) : ℤ) ∧
    num_emds_self N - (N - a) * (N - a - 1) / 2 + (b - a - 1) <
      num_emds_self N := by
  have hfle : (N - a) * (N - a - 1) / 2 ≤ num_emds_self N := by
    unfold num_emds_self
    exact Nat.div_le_div_right (Nat.mul_le_mul (by omega) (by omega))
  have hblt : b - a - 1 < (N - a) * (N - a - 1) / 2 := by
    have hs2 : 2 ≤ N - a := by omega
    have hml : 2 * (N - a - 1) ≤ (N - a) * (N - a - 1) :=
      Nat.mul_le_mul_right _ hs2
    have hdl := Nat.div_le_div_right (c := 2) hml
    rw [Nat.mul_div_cancel_left _ (by norm_num)] at hdl
    omega
  have hcast : ((num_emds_self N : ℕ) : ℤ) -
      Int.tdiv (((N : ℤ) - a) * ((N : ℤ) - a - 1)) 2 + b - a - 1 =
      ((num_emds_self N - (N - a) * (N - a - 1) / 2 + (b - a - 1) : ℕ) : ℤ) := by
    have e1 : ((N : ℤ) - a) = ((N - a : ℕ) : ℤ) := by omega
    have e2 : ((N : ℤ) - a - 1) = ((N - a - 1 : ℕ) : ℤ) := by omega
    rw [e2, e1, ← Nat.cast_mul]
    have e3 : ((((N - a) * (N - a - 1)) : ℕ) : ℤ).tdiv 2 =
        (((N - a) * (N - a - 1) / 2 : ℕ) : ℤ) := (Int.ofNat_tdiv _ 2).symm
    rw [e3]
    omega
  refine ⟨?_, ?_, by omega⟩
  · rw [index_symmetric, if_pos (by exact_mod_cast hab)]
    exact hcast
  · rw [index_symmetric, if_neg (by simp; exact_mod_cast Nat.le_of_lt hab),
      if_pos (by exact_mod_cast hab)]
    exact hcast

/-- Row-major encoding of in-range pairs is in range. -/
lemma encode_lt {N a b : ℕ} (ha : a < N) (hb : b < N) : a * N + b < N * N := by
  have h1 : a * N ≤ (N - 1) * N := Nat.mul_le_mul_right _ (by omega)
  have h2 : (N - 1) * N + N = N * N := by
    obtain ⟨m, rfl⟩ : ∃ m, N = m + 1 := ⟨N - 1, by omega⟩
    simp only [Nat.add_sub_cancel]
    ring
  omega

/-- Core property of the dense-view materialization: if the condensed
store holds `v` at the offset of the sorted pair `(a, b)`, the dense view
holds `v` at both `(a, b)` and `(b, a)` and `0` on the whole diagonal. -/
lemma emdsFull_spec (N a b : ℕ) (v : ℚ) (hab : a < b) (hbN : b < N)
    (condensed : List ℚ)
    (hc : condensed.getD
      (index_symmetric (N : ℤ) ((num_emds_self N : ℕ) : ℤ)
        (a : ℤ) (b : ℤ)).toNat 0 = v) :
    (emdsFull N N (num_emds_self N) condensed).getD (a * N + b) 0 = v ∧
    (emdsFull N N (num_emds_self N) condensed).getD (b * N + a) 0 = v ∧
    ∀ d, d < N →
      (emdsFull N N (num_emds_self N) condensed).getD (d * N + d) 0 = 0 := by
  have hstep : ∀ (acc : List ℚ) (p : ℕ × ℕ),
      fillPair N N (num_emds_self N) condensed acc p =
        (acc.set ((fun p : ℕ × ℕ => p.2 * N + p.1) p)
          ((fun p : ℕ × ℕ => condensed.getD
            (index_symmetric (N : ℤ) ((num_emds_self N : ℕ) : ℤ)
              (p.1 : ℤ) (p.2 : ℤ)).toNat 0) p)).set
          ((fun p : ℕ × ℕ => p.1 * N + p.2) p)
          ((fun p : ℕ × ℕ => condensed.getD
            (index_symmetric (N : ℤ) ((num_emds_self N : ℕ) : ℤ)
              (p.1 : ℤ) (p.2 : ℤ)).toNat 0) p) :=
    fun _ _ => rfl
  have hfull1 : (List.range N).foldl (fun acc i => acc.set (i * i) 0)
      (List.replicate (N * N) (0 : ℚ)) = List.replicate (N * N) 0 :=
    foldl_set_zero_replicate _ _
  have hdense : emdsFull N N (num_emds_self N) condensed =
      (upperPairs N N).foldl (fillPair N N (num_emds_self N) condensed)
        (List.replicate (N * N) 0) := by
    rw [emdsFull, hfull1]
  have hqmem : (a, b) ∈ upperPairs N N :=
    mem_upperPairs.mpr ⟨by omega, hab, hbN⟩
  have hlen : ∀ t : ℕ, t < N * N →
      t < (List.replicate (N * N) (0 : ℚ)).length := by
    intro t ht
    simpa using ht
  refine ⟨?_, ?_, ?_⟩
  · -- position (a, b), written by the second set of the pair (a, b)
    rw [List.getD_eq_getElem?_getD, hdense]
    rw [foldl_write2_writes _ _ _ _ hstep (upperPairs N N) _ (a * N + b)
      v (a, b) hqmem (Or.inr rfl) ?_ (hlen _ (encode_lt (by omega) hbN))]
    · rfl
    · intro p hp hw
      obtain ⟨pa, pb⟩ := p
      obtain ⟨hp1, hp2, hp3⟩ := mem_upperPairs.mp hp
      simp only at hp2 hp3 hw ⊢
      rcases hw with hw | hw
      · obtain ⟨h1, h2⟩ := encode_inj (show pa < N by omega) hbN hw
        omega
      · obtain ⟨h1, h2⟩ := encode_inj hp3 hbN hw
        subst h1
        subst h2
        exact hc
  · -- position (b, a), written by the first set of the pair (a, b)
    rw [List.getD_eq_getElem?_getD, hdense]
    rw [foldl_write2_writes _ _ _ _ hstep (upperPairs N N) _ (b * N + a)
      v (a, b) hqmem (Or.inl rfl) ?_ (hlen _ (encode_lt hbN (by omega)))]
    · rfl
    · intro p hp hw
      obtain ⟨pa, pb⟩ := p
      obtain ⟨hp1, hp2, hp3⟩ := mem_upperPairs.mp hp
      simp only at hp2 hp3 hw ⊢
      rcases hw with hw | hw
      · obtain ⟨h1, h2⟩ := encode_inj (show pa < N by omega)
          (show a < N by omega) hw
        subst h1
        subst h2
        exact hc
      · obtain ⟨h1, h2⟩ := encode_inj hp3 (show a < N by omega) hw
        omega
  · -- diagonal positions are never written by the fill loop
    intro d hd
    rw [List.getD_eq_getElem?_getD, hdense]
    rw [foldl_write2_pres _ _ _ _ hstep (upperPairs N N) _ (d * N + d) ?_]
    · rw [List.getElem?_eq_getElem (hlen _ (encode_lt hd hd))]
      simp
    · intro p hp
      obtain ⟨pa, pb⟩ := p
      obtain ⟨hp1, hp2, hp3⟩ := mem_upperPairs.mp hp
      simp only at hp2 hp3 ⊢
      constructor
      · intro hw
        obtain ⟨h1, h2⟩ := encode_inj (show pa < N by omega) hd hw
        omega
      · intro hw
        obtain ⟨h1, h2⟩ := encode_inj hp3 hd hw
        omega

end PairwiseEMD

/-- C4: in flattened-symmetric storage, for every `N ≥ 2` and every pair
`i ≠ j` with `i, j < N`, storing a value at the condensed offset
`index_symmetric(i, j)` and then materializing the dense `N×N` view via
the `emds()` accessor reproduces that value at both positions `(i, j)` and
`(j, i)` of the dense view, and every diagonal position `(d, d)` of the
dense view is zero. -/
theorem C4_dense_view_round_trip (N i j : ℕ) (v : ℚ)
    (condensed : List ℚ) (hN : 2 ≤ N)
    (hi : i < N) (hj : j < N) (hij : i ≠ j)
    (hstore : condensed =
      (List.replicate (PairwiseEMD.num_emds_self N) (0 : ℚ)).set
        (PairwiseEMD.index_symmetric (N : ℤ)
          ((PairwiseEMD.num_emds_self N : ℕ) : ℤ)
          (i : ℤ) (j : ℤ)).toNat v) :
    let dense := PairwiseEMD.emdsFull N N (PairwiseEMD.num_emds_self N)
      condensed
    dense.getD (i * N + j) 0 = v ∧ dense.getD (j * N + i) 0 = v ∧
    ∀ d, d < N → dense.getD (d * N + d) 0 = 0 := by
  intro dense
  subst hstore
  rcases Nat.lt_or_ge i j with hlt | hge
  · have hoff := PairwiseEMD.condensed_offset N i j hlt hj
    have hc : ((List.replicate (PairwiseEMD.num_emds_self N) (0 : ℚ)).set
        (PairwiseEMD.index_symmetric (N : ℤ)
          ((PairwiseEMD.num_emds_self N : ℕ) : ℤ)
          (i : ℤ) (j : ℤ)).toNat v).getD
        (PairwiseEMD.index_symmetric (N : ℤ)
          ((PairwiseEMD.num_emds_self N : ℕ) : ℤ)
          (i : ℤ) (j : ℤ)).toNat 0 = v := by
      rw [hoff.1, Int.toNat_natCast, List.getD_eq_getElem?_getD,
        List.getElem?_set_eq_of_lt]
      · rfl
      · rw [List.length_replicate]
        exact hoff.2.2
    have h := PairwiseEMD.emdsFull_spec N i j v hlt hj _ hc
    exact ⟨h.1, h.2.1, h.2.2⟩
  · have hlt : j < i := by omega
    have hoff := PairwiseEMD.condensed_offset N j i hlt hi
    have hc : ((List.replicate (PairwiseEMD.num_emds_self N) (0 : ℚ)).set
        (PairwiseEMD.index_symmetric (N : ℤ)
          ((PairwiseEMD.num_emds_self N : ℕ) : ℤ)
          (i : ℤ) (j : ℤ)).toNat v).getD
        (PairwiseEMD.index_symmetric (N : ℤ)
          ((PairwiseEMD.num_emds_self N : ℕ) : ℤ)
          (j : ℤ) (i : ℤ)).toNat 0 = v := by
      rw [hoff.1, hoff.2.1, Int.toNat_natCast, List.getD_eq_getElem?_getD,
        List.getElem?_set_eq_of_lt]
      · rfl
      · rw [List.length_replicate]
        exact hoff.2.2
    have h := PairwiseEMD.emdsFull_spec N j i v hlt hi _ hc
    exact ⟨h.2.1, h.1, h.2.2⟩

/-- C4 witness: `N = 3`, pair `(0, 2)`, value `5`. -/
theorem C4_dense_view_round_trip_witness :
    (2 ≤ 3 ∧ (0 : ℕ) < 3 ∧ (2 : ℕ) < 3 ∧ (0 : ℕ) ≠ 2) ∧
    ((PairwiseEMD.emdsFull 3 3 (PairwiseEMD.num_emds_self 3)
        ((List.replicate (PairwiseEMD.num_emds_self 3) (0 : ℚ)).set
          (PairwiseEMD.index_symmetric 3 (PairwiseEMD.num_emds_self 3)
            0 2).toNat 5)).getD (0 * 3 + 2) 0 = 5 ∧
      (PairwiseEMD.emdsFull 3 3 (PairwiseEMD.num_emds_self 3)
        ((List.replicate (PairwiseEMD.num_emds_self 3) (0 : ℚ)).set
          (PairwiseEMD.index_symmetric 3 (PairwiseEMD.num_emds_self 3)
            0 2).toNat 5)).getD (2 * 3 + 0) 0 = 5 ∧
      ∀ d, d < 3 →
        (PairwiseEMD.emdsFull 3 3 (PairwiseEMD.num_emds_self 3)
          ((List.replicate (PairwiseEMD.num_emds_self 3) (0 : ℚ)).set
            (PairwiseEMD.index_symmetric 3 (PairwiseEMD.num_emds_self 3)
              0 2).toNat 5)).getD (d * 3 + d) 0 = 0) :=
  ⟨⟨by decide, by decide, by decide, by decide⟩,
    C4_dense_view_round_trip 3 0 2 5 _ (by decide) (by decide) (by decide)
      (by decide) rfl⟩

namespace PairwiseEMD

/-- `PairwiseEMD::emd(i, j, thread)` (`EMD.hh` lines 665-702): negative
indices are shifted by `nevA`/`nevB`; out-of-range indices raise; in
request mode the pair is computed on demand (here abstracted as the oracle
`requestCompute`, after the `thread >= num_threads_` check); with External
storage an error is raised; with FlattenedSymmetric storage the diagonal
is the constant `0` and off-diagonal values come from the condensed
offset; otherwise the dense entry `i*nevB + j` is returned. -/
def emd (nevA nevB : ℤ) (requestMode : Bool) (numThreads thread : ℤ)
    (requestCompute : ℤ → ℤ → Except String ℚ)
    (storage : EMDPairsStorage) (num_emds : ℤ) (emds : List ℚ)
    (i j : ℤ) : Except String ℚ :=
  let i := if i < 0 then i + nevA else i
  let j := if j < 0 then j + nevB else j
  if nevA ≤ i ∨ nevB ≤ j ∨ i < 0 ∨ j < 0 then
    Except.error ("PairwiseEMD::emd - Accessing emd value at (" ++
      toString i ++ ", " ++ toString j ++ ") exceeds allowed range")
  else if requestMode then
    if numThreads ≤ thread then Except.error "invalid thread index"
    else requestCompute i j
  else if storage = EMDPairsStorage.External then
    Except.error
      "EMD requested but external handler provided, so no EMDs stored"
  else if storage = EMDPairsStorage.FlattenedSymmetric then
    Except.ok (if i = j then 0
      else emds.getD (index_symmetric nevA num_emds i j).toNat 0)
  else
    Except.ok (emds.getD (i * nevB + j).toNat 0)

end PairwiseEMD

/-- C5: in self-pairs mode the self-distance `emd(i, i)` is exactly zero
(the FlattenedSymmetric accessor returns the constant `0` on the
diagonal), and the pair `(i, i)` is never dispatched to the solver: every
index produced by the batch enumeration has distinct coordinates. -/
theorem C5_self_distance_zero (nevA numThreads thread : ℤ)
    (requestCompute : ℤ → ℤ → Except String ℚ)
    (num_emds : ℤ) (emds : List ℚ) (i : ℤ)
    (h0 : 0 ≤ i) (h1 : i < nevA) :
    PairwiseEMD.emd nevA nevA false numThreads thread requestCompute
      EMDPairsStorage.FlattenedSymmetric num_emds emds i i =
        Except.ok 0 ∧
    ∀ N k, 2 ≤ N → k < PairwiseEMD.num_emds_self N →
      (PairwiseEMD.pairFromIndex N k).1 ≠
        (PairwiseEMD.pairFromIndex N k).2 := by
  constructor
  · have hneg : ¬(i < 0) := not_lt.mpr h0
    simp only [PairwiseEMD.emd, if_neg hneg]
    rw [if_neg (by omega : ¬(nevA ≤ i ∨ nevA ≤ i ∨ i < 0 ∨ i < 0))]
    simp
  · intro N k hN hk
    have h := PairwiseEMD.pairFromIndex_spec N k hN hk
    omega

/-- C5 witness: index `1` of a 3-event self-pairs batch. -/
theorem C5_self_distance_zero_witness :
    ((0 : ℤ) ≤ 1 ∧ (1 : ℤ) < 3) ∧
    (PairwiseEMD.emd 3 3 false 1 0 (fun _ _ => Except.error "")
        EMDPairsStorage.FlattenedSymmetric 3 [5, 6, 7] 1 1 =
          Except.ok 0 ∧
      ∀ N k, 2 ≤ N → k < PairwiseEMD.num_emds_self N →
        (PairwiseEMD.pairFromIndex N k).1 ≠
          (PairwiseEMD.pairFromIndex N k).2) :=
  ⟨⟨by decide, by decide⟩,
    C5_self_distance_zero 3 1 0 (fun _ _ => Except.error "") 3 [5, 6, 7] 1
      (by decide) (by decide)⟩

/-- C9: the single-flow lookup `flow(i, j)` resolves a negative row or
column index by adding the corresponding dimension (so on a solver with
`n0 = 3`, `n1 = 4`, `flow(-1, -1)` equals `flow(2, 3)`), raises an
out-of-range error for any index still outside `[0, n0) × [0, n1)` after
the resolution (so `flow(3, 0)` raises), and for in-range indices returns
the raw solver flow at row-major position `i*n1 + j` rescaled by
`scale`. -/
theorem C9_flow_lookup (n0 n1 : ℤ) (flows : List ℚ) (scale : ℚ)
    (i j : ℤ) :
    (let i' := if i < 0 then i + n0 else i
     let j' := if j < 0 then j + n1 else j
     (0 ≤ i' → i' < n0 → 0 ≤ j' → j' < n1 →
        EMD.flow n0 n1 flows scale i j =
          Except.ok (flows.getD (i' * n1 + j').toNat 0 * scale)) ∧
     (¬(0 ≤ i' ∧ i' < n0 ∧ 0 ≤ j' ∧ j' < n1) →
        EMD.flow n0 n1 flows scale i j =
          Except.error "EMD::flow - Indices out of range")) ∧
    EMD.flow 3 4 flows scale (-1) (-1) = EMD.flow 3 4 flows scale 2 3 ∧
    EMD.flow 3 4 flows scale 3 0 =
      Except.error "EMD::flow - Indices out of range" := by
  refine ⟨⟨?_, ?_⟩, ?_, ?_⟩
  · intro h1 h2 h3 h4
    simp only [EMD.flow]
    rw [if_neg (by omega)]
  · intro h
    simp only [EMD.flow]
    rw [if_pos (by omega)]
  · simp only [EMD.flow]
    norm_num
  · simp only [EMD.flow]
    norm_num

/-- C9 witness: on a `3 × 4` flow matrix holding `0..11` with scale `2`,
`flow(-1, -1)` resolves to `(2, 3)` and returns `11 * 2 = 22`. -/
theorem C9_flow_lookup_witness :
    EMD.flow 3 4 [0, 1, 2, 3, 4, 5, 6, 7, 8, 9, 10, 11] 2 (-1) (-1) =
      Except.ok 22 := by
  have h := (C9_flow_lookup 3 4 [0, 1, 2, 3, 4, 5, 6, 7, 8, 9, 10, 11] 2
    (-1) (-1)).1.1 (by norm_num) (by norm_num) (by norm_num) (by norm_num)
  rw [h]
  rw [show Int.toNat ((if (-1 : ℤ) < 0 then -1 + 3 else -1) * 4 +
    if (-1 : ℤ) < 0 then -1 + 4 else -1) = 11 from rfl]
  norm_num

namespace PairwiseEMD

/-- The failure message formatted by `PairwiseEMD::record_failure`
(lines 923-927). -/
def failureMessage (status : EMDStatus) (i j : ℕ) : String :=
  "PairwiseEMD::compute - Issue with EMD between events (" ++ toString i ++
    ", " ++ toString j ++ "), error code " ++ toString status.code

/-- `PairwiseEMD::record_failure` (lines 923-937): appends the formatted
message to `error_messages_` (the diagnostic-stream print is not part of
the observable state modelled here). -/
def record_failure (error_messages : List String) (status : EMDStatus)
    (i j : ℕ) : List String :=
  error_messages ++ [failureMessage status i j]

end PairwiseEMD

/-- The observable per-batch state touched by one iteration of the
dispatch loop of `PairwiseEMD::compute`: the failure log, the result
store, and the sequence of external-handler invocations. -/
structure DispatchState where
  error_messages : List String
  emds : List ℚ
  handlerCalls : List (ℚ × ℚ)
  deriving Repr, DecidableEq

namespace PairwiseEMD

/-- One iteration of the dispatch loop of `PairwiseEMD::compute`
(lines 804-845), after `emd_obj.compute` returned `status` with distance
`emdVal` for the pair `(i, j)` of events with event weights `wA`, `wB` (at
flat index `k`): a failure is recorded when the status is not `Success`;
then, unconditionally, in the two-event-sets branch the handler is invoked
with `(emdVal, wA*wB)` if set and otherwise `emds_[k]` is written, and in
the self-pairs branch the write is dispatched on the storage mode
(FlattenedSymmetric: condensed offset; External: handler; FullSymmetric:
both dense mirror entries; otherwise the "Should never get here" print
changes nothing). -/
def processPair (twoEventSets haveHandler : Bool)
    (storage : EMDPairsStorage) (nevA nevB num_emds : ℕ)
    (st : DispatchState) (k i j : ℕ) (status : EMDStatus)
    (emdVal wA wB : ℚ) : DispatchState :=
  let errors :=
    if status ≠ EMDStatus.Success then
      record_failure st.error_messages status i j
    else st.error_messages
  if twoEventSets then
    if haveHandler then
      { error_messages := errors, emds := st.emds,
        handlerCalls := st.handlerCalls ++ [(emdVal, wA * wB)] }
    else
      { error_messages := errors, emds := st.emds.set k emdVal,
        handlerCalls := st.handlerCalls }
  else
    if storage = EMDPairsStorage.FlattenedSymmetric then
      { error_messages := errors,
        emds := st.emds.set
          (index_symmetric (nevA : ℤ) (num_emds : ℤ) (i : ℤ) (j : ℤ)).toNat
          emdVal,
        handlerCalls := st.handlerCalls }
    else if storage = EMDPairsStorage.External then
      { error_messages := errors, emds := st.emds,
        handlerCalls := st.handlerCalls ++ [(emdVal, wA * wB)] }
    else if storage = EMDPairsStorage.FullSymmetric then
      { error_messages := errors,
        emds := (st.emds.set (j * nevB + i) emdVal).set (i * nevB + j)
          emdVal,
        handlerCalls := st.handlerCalls }
    else
      { error_messages := errors, emds := st.emds,
        handlerCalls := st.handlerCalls }

end PairwiseEMD

/-- C6 counterexample: the claim says the handler invocation and the
result-store write happen only for pairs whose status is `Success`, but
the dispatch loop performs them unconditionally: here a pair with status
`Infeasible` still triggers the handler call (two-event-sets branch with a
handler) and still writes the store (no handler). -/
theorem C6_dispatch_counterexample :
    EMDStatus.Infeasible ≠ EMDStatus.Success ∧
    (PairwiseEMD.processPair true true EMDPairsStorage.Full 2 2 4
        ⟨[], [0, 0, 0, 0], []⟩ 1 0 1 EMDStatus.Infeasible 3 1 1).handlerCalls =
      [(3, 1)] ∧
    (PairwiseEMD.processPair true false EMDPairsStorage.Full 2 2 4
        ⟨[], [0, 0, 0, 0], []⟩ 1 0 1 EMDStatus.Infeasible 3 1 1).emds =
      [0, 3, 0, 0] := by
  refine ⟨by decide, ?_, ?_⟩ <;> norm_num [PairwiseEMD.processPair]

/-- C6 (amended): during batch dispatch, for every computed pair —
regardless of its status — if an external handler is set it is invoked
with the distance and the product of the two events' event weights, and
otherwise the distance is written into the result store at the address
dictated by the active StorageMode; a failure record is appended exactly
when the status is not `Success`. -/
theorem C6_dispatch_actions (twoEventSets haveHandler : Bool)
    (storage : EMDPairsStorage) (nevA nevB num_emds : ℕ)
    (st : DispatchState) (k i j : ℕ) (status : EMDStatus)
    (emdVal wA wB : ℚ) :
    let r := PairwiseEMD.processPair twoEventSets haveHandler storage
      nevA nevB num_emds st k i j status emdVal wA wB
    (status ≠ EMDStatus.Success →
      r.error_messages = st.error_messages ++
        [PairwiseEMD.failureMessage status i j]) ∧
    (status = EMDStatus.Success →
      r.error_messages = st.error_messages) ∧
    (twoEventSets = true → haveHandler = true →
      r.handlerCalls = st.handlerCalls ++ [(emdVal, wA * wB)] ∧
      r.emds = st.emds) ∧
    (twoEventSets = true → haveHandler = false →
      r.emds = st.emds.set k emdVal ∧
      r.handlerCalls = st.handlerCalls) ∧
    (twoEventSets = false → storage = EMDPairsStorage.FlattenedSymmetric →
      r.emds = st.emds.set
        (PairwiseEMD.index_symmetric (nevA : ℤ) (num_emds : ℤ)
          (i : ℤ) (j : ℤ)).toNat emdVal ∧
      r.handlerCalls = st.handlerCalls) ∧
    (twoEventSets = false → storage = EMDPairsStorage.External →
      r.handlerCalls = st.handlerCalls ++ [(emdVal, wA * wB)] ∧
      r.emds = st.emds) ∧
    (twoEventSets = false → storage = EMDPairsStorage.FullSymmetric →
      r.emds = (st.emds.set (j * nevB + i) emdVal).set (i * nevB + j)
        emdVal ∧
      r.handlerCalls = st.handlerCalls) := by
  cases twoEventSets <;> cases haveHandler <;> cases storage <;>
    by_cases hs : status = EMDStatus.Success <;>
    simp_all [PairwiseEMD.processPair, PairwiseEMD.record_failure]

/-- C6 witness for the amended claim: a successful pair in
FlattenedSymmetric self-pairs storage writes the condensed offset and
records no failure. -/
theorem C6_dispatch_actions_witness :
    (PairwiseEMD.processPair false false EMDPairsStorage.FlattenedSymmetric
        3 3 3 ⟨[], [0, 0, 0], []⟩ 0 1 0 EMDStatus.Success 9 1 1).emds =
      [9, 0, 0] ∧
    (PairwiseEMD.processPair false false EMDPairsStorage.FlattenedSymmetric
        3 3 3 ⟨[], [0, 0, 0], []⟩ 0 1 0 EMDStatus.Success 9 1 1).error_messages =
      [] := by
  have h := C6_dispatch_actions false false EMDPairsStorage.FlattenedSymmetric
    3 3 3 ⟨[], [0, 0, 0], []⟩ 0 1 0 EMDStatus.Success 9 1 1
  refine ⟨?_, ?_⟩
  · rw [(h.2.2.2.2.1 rfl rfl).1]
    rfl
  · rw [h.2.1 rfl]

/-- The outcome of one pair of a batch, as seen by the error-aggregation
logic of `PairwiseEMD::compute`: the pair's indices and the status
returned by `emd_obj.compute`. -/
structure PairOutcome where
  i : ℕ
  j : ℕ
  status : EMDStatus
  deriving Repr, DecidableEq

namespace PairwiseEMD

/-- The failure messages a chunk contributes, in dispatch order. -/
def chunkFailures (c : List PairOutcome) : List String :=
  (c.filter fun p => p.status ≠ EMDStatus.Success).map fun p =>
    failureMessage p.status p.i p.j

/-- Error aggregation over one chunk of the dispatch loop of
`PairwiseEMD::compute` (lines 801-846): every pair of the chunk is
processed; a failure is recorded (under the failure mutex) for each pair
whose status is not `Success`. The accumulator carries
`(error_messages_, pairs processed so far)`. -/
def processChunk (acc : List String × List (ℕ × ℕ))
    (c : List PairOutcome) : List String × List (ℕ × ℕ) :=
  c.foldl (fun acc p =>
    (if p.status ≠ EMDStatus.Success then
        record_failure acc.1 p.status p.i p.j
      else acc.1,
     acc.2 ++ [(p.i, p.j)])) acc

/-- The chunked outer loop of `PairwiseEMD::compute` (lines 782-852): the
guard `!(throw_on_error_ && error_messages().size())` is evaluated only
between chunks; a dispatched chunk always runs to completion. -/
def computeChunks (throwOnError : Bool) :
    List (List PairOutcome) → List String × List (ℕ × ℕ) →
      List String × List (ℕ × ℕ)
  | [], acc => acc
  | c :: rest, acc =>
    if throwOnError ∧ acc.1 ≠ [] then acc
    else computeChunks throwOnError rest (processChunk acc c)

/-- `PairwiseEMD::compute` (lines 758-856): in request mode it raises
immediately; otherwise the chunked loop runs and, if `throw_on_error_` is
set and any failure was recorded, the call raises with the first recorded
message (`error_messages_.front()`). -/
def computeBatch (requestMode throwOnError : Bool)
    (chunks : List (List PairOutcome)) :
    Except String (List (ℕ × ℕ)) :=
  if requestMode then
    Except.error "cannot compute pairwise EMDs in request mode"
  else
    let acc := computeChunks throwOnError chunks ([], [])
    if throwOnError ∧ acc.1 ≠ [] then Except.error (acc.1.headD "")
    else Except.ok acc.2

lemma processChunk_spec (c : List PairOutcome)
    (acc : List String × List (ℕ × ℕ)) :
    processChunk acc c =
      (acc.1 ++ chunkFailures c,
       acc.2 ++ c.map fun p => (p.i, p.j)) := by
  induction c generalizing acc with
  | nil => simp [processChunk, chunkFailures]
  | cons p c ih =>
    rw [processChunk, List.foldl_cons]
    rw [show ∀ a : List String × List (ℕ × ℕ), c.foldl (fun acc p =>
      (if p.status ≠ EMDStatus.Success then
          record_failure acc.1 p.status p.i p.j
        else acc.1,
       acc.2 ++ [(p.i, p.j)])) a = processChunk a c from fun _ => rfl]
    rw [ih]
    by_cases hp : p.status = EMDStatus.Success <;>
      simp [chunkFailures, record_failure, hp, List.filter_cons]

lemma computeChunks_stop (chunks : List (List PairOutcome))
    (acc : List String × List (ℕ × ℕ)) (h : acc.1 ≠ []) :
    computeChunks true chunks acc = acc := by
  cases chunks with
  | nil => rfl
  | cons c rest => rw [computeChunks, if_pos ⟨rfl, h⟩]

lemma computeChunks_clean (pre : List (List PairOutcome))
    (hpre : ∀ ch ∈ pre, ∀ p ∈ ch, p.status = EMDStatus.Success)
    (rest : List (List PairOutcome)) (d : List (ℕ × ℕ)) :
    computeChunks true (pre ++ rest) ([], d) =
      computeChunks true rest
        ([], d ++ pre.flatMap fun c => c.map fun p => (p.i, p.j)) := by
  induction pre generalizing d with
  | nil => simp
  | cons c pre ih =>
    rw [List.cons_append, computeChunks, if_neg (by simp)]
    have hcf : chunkFailures c = [] := by
      rw [chunkFailures, List.filter_eq_nil_iff.mpr, List.map_nil]
      intro p hp
      simp [hpre c (List.mem_cons_self _ _) p hp]
    rw [processChunk_spec, hcf, List.append_nil]
    rw [ih (fun ch hch => hpre ch (List.mem_cons_of_mem _ hch))]
    simp [List.append_assoc]

end PairwiseEMD

/-- C7: with raise-on-error configured, once some chunk contains a
failure, the batch raises with the earliest recorded failure message; the
guard that stops dispatching is evaluated only between chunks, so a
failure recorded mid-chunk never aborts its own chunk: every pair of the
failing chunk (including those after the failure) is processed, all
earlier chunks are processed, and no later chunk is dispatched. -/
theorem C7_raise_on_error_between_chunks (pre post : List (List PairOutcome))
    (c1 c2 : List PairOutcome) (p0 : PairOutcome)
    (hpre : ∀ ch ∈ pre, ∀ p ∈ ch, p.status = EMDStatus.Success)
    (hc1 : ∀ p ∈ c1, p.status = EMDStatus.Success)
    (hp0 : p0.status ≠ EMDStatus.Success) :
    let chunks := pre ++ (c1 ++ p0 :: c2) :: post
    let acc := PairwiseEMD.computeChunks true chunks ([], [])
    acc.2 = (pre ++ [c1 ++ p0 :: c2]).flatMap
      (fun ch => ch.map fun p => (p.i, p.j)) ∧
    PairwiseEMD.computeBatch false true chunks =
      Except.error (PairwiseEMD.failureMessage p0.status p0.i p0.j) := by
  intro chunks acc
  have hcf : PairwiseEMD.chunkFailures (c1 ++ p0 :: c2) =
      PairwiseEMD.failureMessage p0.status p0.i p0.j ::
        PairwiseEMD.chunkFailures c2 := by
    rw [PairwiseEMD.chunkFailures, List.filter_append]
    rw [List.filter_eq_nil_iff.mpr (by intro p hp; simp [hc1 p hp])]
    rw [List.filter_cons, if_pos (by simpa using hp0)]
    simp [PairwiseEMD.chunkFailures]
  have hacc : acc =
      (PairwiseEMD.failureMessage p0.status p0.i p0.j ::
        PairwiseEMD.chunkFailures c2,
       (pre.flatMap fun ch => ch.map fun p => (p.i, p.j)) ++
         (c1 ++ p0 :: c2).map fun p => (p.i, p.j)) := by
    show PairwiseEMD.computeChunks true (pre ++ (c1 ++ p0 :: c2) :: post)
      ([], []) = _
    rw [PairwiseEMD.computeChunks_clean pre hpre]
    rw [PairwiseEMD.computeChunks, if_neg (by simp)]
    rw [PairwiseEMD.processChunk_spec, hcf]
    rw [PairwiseEMD.computeChunks_stop _ _ (by simp)]
    simp
  constructor
  · rw [hacc]
    simp
  · rw [PairwiseEMD.computeBatch, if_neg (by simp)]
    show (if true ∧ acc.1 ≠ [] then Except.error (acc.1.headD "")
      else Except.ok acc.2) = _
    rw [hacc, if_pos ⟨rfl, by simp⟩]
    rfl

/-- C7 witness: a concrete three-chunk batch whose second chunk fails on
its middle pair; the batch raises with that pair's message and the whole
second chunk (including the pair after the failure) is processed, while
the third chunk is not dispatched. -/
theorem C7_raise_on_error_between_chunks_witness :
    (PairwiseEMD.computeChunks true
        [[⟨1, 0, EMDStatus.Success⟩],
         [⟨2, 0, EMDStatus.Success⟩, ⟨2, 1, EMDStatus.Infeasible⟩,
          ⟨3, 2, EMDStatus.Success⟩],
         [⟨3, 0, EMDStatus.Success⟩]] ([], [])).2 =
      [(1, 0), (2, 0), (2, 1), (3, 2)] ∧
    PairwiseEMD.computeBatch false true
        [[⟨1, 0, EMDStatus.Success⟩],
         [⟨2, 0, EMDStatus.Success⟩, ⟨2, 1, EMDStatus.Infeasible⟩,
          ⟨3, 2, EMDStatus.Success⟩],
         [⟨3, 0, EMDStatus.Success⟩]] =
      Except.error (PairwiseEMD.failureMessage EMDStatus.Infeasible 2 1) := by
  have h := C7_raise_on_error_between_chunks
    [[⟨1, 0, EMDStatus.Success⟩]] [[⟨3, 0, EMDStatus.Success⟩]]
    [⟨2, 0, EMDStatus.Success⟩] [⟨3, 2, EMDStatus.Success⟩]
    ⟨2, 1, EMDStatus.Infeasible⟩
    (by decide) (by decide) (by decide)
  refine ⟨?_, ?_⟩
  · have h1 := h.1
    simp only [List.singleton_append, List.cons_append,
      List.nil_append] at h1
    rw [h1]
    rfl
  · have h2 := h.2
    simp only [List.singleton_append, List.cons_append,
      List.nil_append] at h2
    exact h2

/-- The observable `PairwiseEMD` state touched by `clear(false)` and
`init` (lines 559-581, 718-735): stored events (their count), the result
stores, the failure log, sizes and counters, and the storage mode. -/
structure OrchState where
  nevA : ℤ
  nevB : ℤ
  two_event_sets : Bool
  num_emds : ℤ
  emd_storage : EMDPairsStorage
  events : ℕ
  emds : List ℚ
  full_emds : List ℚ
  error_messages : List String
  emd_counter : ℤ
  deriving Repr, DecidableEq

namespace PairwiseEMD

/-- `PairwiseEMD::clear(false)` (lines 559-570, without the free-memory
branch): clears the event store, both result stores and the failure log,
resets storage to External and zeroes the sizes and the counter. -/
def clearState (st : OrchState) : OrchState :=
  { st with
    events := 0
    emds := []
    full_emds := []
    error_messages := []
    emd_storage := EMDPairsStorage.External
    nevA := 0
    nevB := 0
    emd_counter := 0
    num_emds := 0 }

/-- `PairwiseEMD::init(nev)` for self-pairs (lines 718-735): `clear(false)`
runs only when request mode is off; sizes, mode flag and
`num_emds_ = nev*(nev-1)/2` (signed arithmetic, truncating division) are
always recorded; the storage mode is selected and the result store
resized only when neither an external handler is set nor request mode is
on.  The function never raises. -/
def init (requestMode haveHandler store_sym_emds_flattened : Bool)
    (st : OrchState) (nev : ℤ) : Except String OrchState :=
  let st := if ¬requestMode then clearState st else st
  let st :=
    { st with
      nevA := nev
      nevB := nev
      two_event_sets := false
      num_emds := Int.tdiv (nev * (nev - 1)) 2 }
  let st :=
    if ¬haveHandler ∧ ¬requestMode then
      let storage :=
        if store_sym_emds_flattened then EMDPairsStorage.FlattenedSymmetric
        else EMDPairsStorage.FullSymmetric
      { st with
        emd_storage := storage
        emds := List.replicate
          (if storage = EMDPairsStorage.FullSymmetric then
            (st.nevA * st.nevB).toNat
          else st.num_emds.toNat) 0 }
    else st
  Except.ok st

end PairwiseEMD

/-- C8 counterexample: the claim says both `init` and `compute` raise in
request mode, but `init` returns normally — here on a dirty prior state it
returns `ok` (and, as the amended theorem shows, without clearing that
state). -/
theorem C8_init_counterexample :
    (PairwiseEMD.init true false true
      ⟨2, 2, true, 1, EMDPairsStorage.Full, 4, [7], [1], ["old failure"], 3⟩
      3).isOk = true := by
  rfl

/-- C8 (amended): in request mode `compute` raises instead of dispatching
work, but `init` does not raise: it returns normally, skipping the
clearing of previous state and the result-store allocation while still
recording the sizes, the self-pairs flag and the pair count. -/
theorem C8_request_mode_disallows (throwOnError : Bool)
    (chunks : List (List PairOutcome)) (st : OrchState) (nev : ℤ)
    (haveHandler store_sym_emds_flattened : Bool) :
    PairwiseEMD.computeBatch true throwOnError chunks =
      Except.error "cannot compute pairwise EMDs in request mode" ∧
    PairwiseEMD.init true haveHandler store_sym_emds_flattened st nev =
      Except.ok
        { st with
          nevA := nev
          nevB := nev
          two_event_sets := false
          num_emds := Int.tdiv (nev * (nev - 1)) 2 } := by
  constructor
  · rfl
  · simp [PairwiseEMD.init]

/-- C10: after constructing an `_EMD`, the `external_dists` flag equals
whether the `PairwiseDistance` template parameter is
`DefaultPairwiseDistance`, regardless of the `external_dists` value passed
to the constructor: the constructor body unconditionally overwrites the
caller-supplied argument with the type-based default. -/
theorem C10_construct_external_dists (norm do_timing external_dists : Bool)
    (pairwiseDistanceIsDefault : Bool) :
    (EMD.construct norm do_timing external_dists
        pairwiseDistanceIsDefault).external_dists = pairwiseDistanceIsDefault ∧
    (EMD.construct norm do_timing true pairwiseDistanceIsDefault).external_dists =
      (EMD.construct norm do_timing false pairwiseDistanceIsDefault).external_dists := by
  exact ⟨rfl, rfl⟩
